import Mathlib

/-!
Verification of the points-to / alias tracking engine
(`torch/csrc/jit/passes/utils/alias_tracker.h`).

The header file contains the full template implementation of the group form of
`mayAlias`; every other member function is only declared there (its
implementation file is not among the sources), so those operations are
modelled from the specification document, as marked on each definition.

Values and instruction identities are opaque comparable tokens; we embed both
as natural numbers.  Unordered sets become `Finset`; the points-to graph
becomes a `Finset` of registered values (the key set of `map_`) together with
total edge functions that are empty outside of it.
-/

set_option autoImplicit false

namespace AliasTracker

/-- Opaque identity of an IR value (the `const Value*` tokens). -/
abbrev Value := Nat

/-- Opaque identity of an IR instruction (the `Node*` tokens). -/
abbrev NodeId := Nat

/-- The externally relevant state of an `AliasTracker`:
  * `dom` — the registered values (the key set of `map_`, 1:1 with vertices);
  * `ptsTo`, `ptdFrom` — the two edge sets of each vertex (`Element::pointsTo`
    and `Element::pointedFrom`), as total functions that are empty off `dom`;
  * `wildcards` — the wildcard value set (`wildcards_`);
  * `wildcardWriters` — instructions writing through a wildcard (`wildcardWriters_`);
  * `writeIndex` — the per-instruction write record (`writeIndex_`), as a set
    of (instruction, value) pairs. -/
structure State where
  dom : Finset Value
  ptsTo : Value → Finset Value
  ptdFrom : Value → Finset Value
  wildcards : Finset Value
  wildcardWriters : Finset NodeId
  writeIndex : Finset (NodeId × Value)

/-- The freshly constructed tracker: nothing registered, no wildcards, no writes. -/
def State.init : State :=
  { dom := ∅
    ptsTo := fun _ => ∅
    ptdFrom := fun _ => ∅
    wildcards := ∅
    wildcardWriters := ∅
    writeIndex := ∅ }

/-- The three traversal directions of `Element::bfs` (header lines 104–110). -/
inductive BfsDirection
  | POINTS_TO
  | POINTED_FROM
  | BOTH

/-- Successors of a vertex in a given traversal direction. -/
def succs (s : State) (dir : BfsDirection) (v : Value) : Finset Value :=
  match dir with
  | .POINTS_TO => s.ptsTo v
  | .POINTED_FROM => s.ptdFrom v
  | .BOTH => s.ptsTo v ∪ s.ptdFrom v

/-- One round of breadth-first expansion: keep the frontier and add every
successor of a frontier vertex. -/
def bfsStep (s : State) (dir : BfsDirection) (t : Finset Value) : Finset Value :=
  t ∪ t.biUnion (succs s dir)

/-- The set of vertices reached by a breadth-first search from `v` in direction
`dir`.  `dom.card` expansion rounds saturate every component of a well-formed
state, so this is the reachability closure (including `v` itself, as the BFS
work list starts at `this`). -/
def reach (s : State) (dir : BfsDirection) (v : Value) : Finset Value :=
  (bfsStep s dir)^[s.dom.card] {v}

/-- The memory-location closure of a vertex (`Element::getMemoryLocations`):
forward reachability along `pointsTo` edges. -/
def getMemoryLocations (s : State) (v : Value) : Finset Value :=
  reach s .POINTS_TO v

/-- Registration of a vertex for a value, used by the mutators; the new vertex
has no edges (the edge functions are empty off `dom` in a well-formed state). -/
def addVertex (s : State) (v : Value) : State :=
  { s with dom := insert v s.dom }

/-- The query `contains(v)`: is `v` registered? -/
def contains (s : State) (v : Value) : Bool :=
  decide (v ∈ s.dom)

/-- The query `isWildcard(v)`: membership in the wildcard set. -/
def isWildcard (s : State) (v : Value) : Bool :=
  decide (v ∈ s.wildcards)

/-- Modelled from the spec: `makeFreshValue(v)` creates a new, unconnected
vertex for `v` and fails with a usage error when `v` is already registered
(the implementation file is absent; only the declaration is in the header).
`none` is the usage error. -/
def makeFreshValue (s : State) (v : Value) : Option State :=
  if v ∈ s.dom then none else some (addVertex s v)

/-- Modelled from the spec: `makePointerTo(v, to)` auto-creates a vertex for
either operand when absent, then adds `to` to the `pointsTo` set of `v` and,
keeping the edge sets mutually consistent, `v` to the `pointedFrom` set of
`to`. -/
def makePointerTo (s : State) (v t : Value) : State :=
  let s1 := addVertex (addVertex s v) t
  { s1 with
    ptsTo := fun x => if x = v then insert t (s1.ptsTo x) else s1.ptsTo x
    ptdFrom := fun x => if x = t then insert v (s1.ptdFrom x) else s1.ptdFrom x }

/-- Modelled from the spec: `setWildcard(v)` adds `v` to the wildcard set. -/
def setWildcard (s : State) (v : Value) : State :=
  { s with wildcards := insert v s.wildcards }

/-- Modelled from the spec: `registerWrite(v, n)` records that `n` writes the
vertex of `v` (hence only when `v` has one) and, when `v` is a wildcard,
additionally records `n` in the wildcard-writer set. -/
def registerWrite (s : State) (v : Value) (n : NodeId) : State :=
  { s with
    writeIndex := if v ∈ s.dom then insert (n, v) s.writeIndex else s.writeIndex
    wildcardWriters :=
      if v ∈ s.wildcards then insert n s.wildcardWriters else s.wildcardWriters }

/-- Modelled from the spec: the forward closure a value contributes to the
pairwise `mayAlias`; a value never registered contributes an empty closure. -/
def closureOf (s : State) (v : Value) : Finset Value :=
  if v ∈ s.dom then getMemoryLocations s v else ∅

/-- Modelled from the spec: pairwise `mayAlias(a, b)` — true when either value
is a wildcard, otherwise true iff the two forward closures intersect. -/
def mayAlias (s : State) (a b : Value) : Bool :=
  isWildcard s a || isWildcard s b ||
    decide ((closureOf s a ∩ closureOf s b).Nonempty)

/-- First pass of the group query (header lines 31–46): scan group `a`,
short-circuiting on a wildcard member (`none`); otherwise accumulate the
memory locations of every registered member.  The source advances the iterator
past duplicate occurrences; re-processing a duplicate accumulates the same
locations into the same set, so the embedding processes every occurrence. -/
def accumLocs (s : State) : List Value → Finset Value → Option (Finset Value)
  | [], acc => some acc
  | v :: rest, acc =>
    if isWildcard s v then none
    else accumLocs s rest (if v ∈ s.dom then acc ∪ getMemoryLocations s v else acc)

/-- Second pass of the group query (header lines 48–65): scan group `b`,
short-circuiting on a wildcard member; return true on the first registered
member one of whose memory locations is in the accumulated set. -/
def probeLocs (s : State) (locs : Finset Value) : List Value → Bool
  | [] => false
  | v :: rest =>
    if isWildcard s v then true
    else if v ∈ s.dom ∧ (getMemoryLocations s v ∩ locs).Nonempty then true
    else probeLocs s locs rest

/-- The group form of `mayAlias` (header lines 24–68): empty groups yield
false; otherwise accumulate the locations of group `a`, then probe group `b`
against them, with wildcard short-circuiting in both passes.  Groups are
lists, which makes them duplicate tolerant. -/
def mayAliasGroup (s : State) (a b : List Value) : Bool :=
  if a.isEmpty || b.isEmpty then false
  else
    match accumLocs s a ∅ with
    | none => true
    | some locs => probeLocs s locs b

/-- Modelled from the spec: `writesTo(n, v)` — the direct, non-alias-aware
test that `n` is recorded as writing exactly the vertex of `v`. -/
def writesTo (s : State) (n : NodeId) (v : Value) : Bool :=
  decide ((n, v) ∈ s.writeIndex)

/-- Modelled from the spec: the derived set of written-to memory locations —
the union of the forward closures of every vertex recorded in the write
index. -/
def writtenToLocs (s : State) : Finset Value :=
  s.writeIndex.biUnion (fun p => getMemoryLocations s p.2)

/-- Modelled from the spec: `hasWriters(v)` — true iff the forward closure of
`v` meets the written-to locations, or some wildcard write exists and `v` is
itself wildcard-tagged or reachable from a wildcard. -/
def hasWriters (s : State) (v : Value) : Bool :=
  decide ((closureOf s v ∩ writtenToLocs s).Nonempty) ||
    (decide s.wildcardWriters.Nonempty &&
      (isWildcard s v || decide (∃ w ∈ s.wildcards, v ∈ getMemoryLocations s w)))

/-- Modelled from the spec: `getAliases(v)` — the connected component of `v`
under both edge directions (`BfsDirection::BOTH`), excluding `v` itself; the
wildcard set is not consulted. -/
def getAliases (s : State) (v : Value) : Finset Value :=
  (reach s .BOTH v).erase v

/-- The mutating operations of the engine, used to describe reachable states. -/
inductive Op
  | mkFresh (v : Value)
  | mkPtr (v t : Value)
  | setWild (v : Value)
  | regWrite (v : Value) (n : NodeId)

/-- Application of one mutation; a failing `makeFreshValue` leaves the state
unchanged (a run in which it succeeded or was dropped reaches the same
states). -/
def applyOp (s : State) : Op → State
  | .mkFresh v => (makeFreshValue s v).getD s
  | .mkPtr v t => makePointerTo s v t
  | .setWild v => setWildcard s v
  | .regWrite v n => registerWrite s v n

/-- The state reached from a fresh tracker by a sequence of mutations. -/
def applyOps (ops : List Op) : State :=
  ops.foldl applyOp State.init

/-- Well-formedness of a tracker state: edge mutuality, edges confined to
registered vertices, and write records attributed to registered vertices.
Every reachable state satisfies it. -/
structure WF (s : State) : Prop where
  edge_mutual : ∀ x y, y ∈ s.ptsTo x ↔ x ∈ s.ptdFrom y
  ptsTo_dom : ∀ x, s.ptsTo x ⊆ s.dom
  ptdFrom_dom : ∀ x, s.ptdFrom x ⊆ s.dom
  off_dom : ∀ x, x ∉ s.dom → s.ptsTo x = ∅ ∧ s.ptdFrom x = ∅
  writes_dom : ∀ p ∈ s.writeIndex, p.2 ∈ s.dom

/-- The set the first pass of the group query accumulates when no wildcard
interrupts it: the union of the memory locations of the registered members. -/
def groupLocs (s : State) (a : List Value) : Finset Value :=
  a.foldr (fun v acc => (if v ∈ s.dom then getMemoryLocations s v else ∅) ∪ acc) ∅

/-- The tracker together with its caches: the staleness flag `cacheStale_`,
the per-element `cachedMemoryLocations_` and the written-to set
`cachedWrittenToLocs_` (header lines 121–147). -/
structure CachedState where
  base : State
  cacheStale : Bool
  cachedMemLocs : Value → Finset Value
  cachedWrittenToLocs : Finset Value

/-- A freshly constructed tracker; its caches start out stale. -/
def CachedState.init : CachedState :=
  { base := State.init
    cacheStale := true
    cachedMemLocs := fun _ => ∅
    cachedWrittenToLocs := ∅ }

/-- Modelled from the spec: every graph-structural mutation and every write
registration raises the staleness flag; `setWildcard` touches neither the
graph nor the writes, so it leaves the flag alone. -/
def applyMut (c : CachedState) (op : Op) : CachedState :=
  { c with
    base := applyOp c.base op
    cacheStale :=
      match op with
      | .setWild _ => c.cacheStale
      | _ => true }

/-- Modelled from the spec: the lazy rebuild guarding every query
(`rebuildCache`) — when the flag is stale, recompute every cached closure and
the written-to set from scratch and lower the flag. -/
def ensureFresh (c : CachedState) : CachedState :=
  if c.cacheStale then
    { c with
      cacheStale := false
      cachedMemLocs := fun v => getMemoryLocations c.base v
      cachedWrittenToLocs := writtenToLocs c.base }
  else c

/-- The closure a value contributes to a cached query: its cached memory
locations when registered, empty otherwise. -/
def closureOfC (c : CachedState) (v : Value) : Finset Value :=
  if v ∈ c.base.dom then c.cachedMemLocs v else ∅

/-- The pairwise query computed through the caches; it returns its result
together with the (possibly rebuilt) engine. -/
def mayAliasC (c : CachedState) (a b : Value) : Bool × CachedState :=
  let c' := ensureFresh c
  (isWildcard c'.base a || isWildcard c'.base b ||
    decide ((closureOfC c' a ∩ closureOfC c' b).Nonempty), c')

/-- First pass of the group query computed through the caches. -/
def accumLocsC (c : CachedState) : List Value → Finset Value → Option (Finset Value)
  | [], acc => some acc
  | v :: rest, acc =>
    if isWildcard c.base v then none
    else accumLocsC c rest (if v ∈ c.base.dom then acc ∪ c.cachedMemLocs v else acc)

/-- Second pass of the group query computed through the caches. -/
def probeLocsC (c : CachedState) (locs : Finset Value) : List Value → Bool
  | [] => false
  | v :: rest =>
    if isWildcard c.base v then true
    else if v ∈ c.base.dom ∧ (c.cachedMemLocs v ∩ locs).Nonempty then true
    else probeLocsC c locs rest

/-- The group query computed through the caches. -/
def mayAliasGroupC (c : CachedState) (a b : List Value) : Bool × CachedState :=
  let c' := ensureFresh c
  (if a.isEmpty || b.isEmpty then false
   else
     match accumLocsC c' a ∅ with
     | none => true
     | some locs => probeLocsC c' locs b, c')

/-- The direct write test on the cached engine; it reads only the write index
and needs no cache. -/
def writesToC (c : CachedState) (n : NodeId) (v : Value) : Bool × CachedState :=
  (writesTo c.base n v, c)

/-- The `hasWriters` query computed through the caches. -/
def hasWritersC (c : CachedState) (v : Value) : Bool × CachedState :=
  let c' := ensureFresh c
  (decide ((closureOfC c' v ∩ c'.cachedWrittenToLocs).Nonempty) ||
    (decide c'.base.wildcardWriters.Nonempty &&
      (isWildcard c'.base v ||
        decide (∃ w ∈ c'.base.wildcards, v ∈ c'.cachedMemLocs w))), c')

/-- The `getAliases` query on the cached engine: like every query it first
refreshes the caches, then walks the graph in both directions. -/
def getAliasesC (c : CachedState) (v : Value) : Finset Value × CachedState :=
  let c' := ensureFresh c
  (getAliases c'.base v, c')

/-- One step of an interleaved mutation/query run against the cached engine. -/
inductive COp
  | mutate (op : Op)
  | qMayAlias (a b : Value)
  | qMayAliasGroup (a b : List Value)
  | qWritesTo (n : NodeId) (v : Value)
  | qHasWriters (v : Value)
  | qGetAliases (v : Value)

/-- One interleaved step: a mutation invalidates; a query may rebuild. -/
def applyCOp (c : CachedState) : COp → CachedState
  | .mutate op => applyMut c op
  | .qMayAlias a b => (mayAliasC c a b).2
  | .qMayAliasGroup a b => (mayAliasGroupC c a b).2
  | .qWritesTo n v => (writesToC c n v).2
  | .qHasWriters v => (hasWritersC c v).2
  | .qGetAliases v => (getAliasesC c v).2

/-- Running an interleaved sequence against the cached engine. -/
def runC (ops : List COp) : CachedState :=
  ops.foldl applyCOp CachedState.init

/-- The mutation subsequence of an interleaved run. -/
def mutationsOf (ops : List COp) : List Op :=
  ops.filterMap fun o =>
    match o with
    | .mutate op => some op
    | _ => none

/-- The cache-coherence invariant: whenever the staleness flag is down, the
caches hold exactly the from-scratch values for the current base state. -/
def CacheOK (c : CachedState) : Prop :=
  c.cacheStale = false →
    (∀ v, c.cachedMemLocs v = getMemoryLocations c.base v) ∧
    c.cachedWrittenToLocs = writtenToLocs c.base

/-! Theorems. -/

theorem wf_init : WF State.init := by
  constructor <;> simp [State.init]

theorem wf_addVertex {s : State} (h : WF s) (v : Value) : WF (addVertex s v) := by
  refine ⟨h.edge_mutual, ?_, ?_, ?_, ?_⟩
  · intro x
    exact (h.ptsTo_dom x).trans (Finset.subset_insert _ _)
  · intro x
    exact (h.ptdFrom_dom x).trans (Finset.subset_insert _ _)
  · intro x hx
    exact h.off_dom x (fun hd => hx (Finset.mem_insert_of_mem hd))
  · intro p hp
    exact Finset.mem_insert_of_mem (h.writes_dom p hp)

theorem makePointerTo_dom (s : State) (v t : Value) :
    (makePointerTo s v t).dom = insert t (insert v s.dom) := rfl

theorem makePointerTo_ptsTo (s : State) (v t x : Value) :
    (makePointerTo s v t).ptsTo x =
      if x = v then insert t (s.ptsTo x) else s.ptsTo x := rfl

theorem makePointerTo_ptdFrom (s : State) (v t x : Value) :
    (makePointerTo s v t).ptdFrom x =
      if x = t then insert v (s.ptdFrom x) else s.ptdFrom x := rfl

theorem wf_makePointerTo {s : State} (h : WF s) (v t : Value) :
    WF (makePointerTo s v t) := by
  have hvdom : v ∈ (makePointerTo s v t).dom := by
    rw [makePointerTo_dom]
    exact Finset.mem_insert_of_mem (Finset.mem_insert_self v _)
  have htdom : t ∈ (makePointerTo s v t).dom := by
    rw [makePointerTo_dom]
    exact Finset.mem_insert_self t _
  refine ⟨?_, ?_, ?_, ?_, ?_⟩
  · intro x y
    rw [makePointerTo_ptsTo, makePointerTo_ptdFrom]
    by_cases hx : x = v <;> by_cases hy : y = t
    · subst hx
      subst hy
      simp
    · subst hx
      simp [hy, Finset.mem_insert, h.edge_mutual]
    · subst hy
      simp [hx, Finset.mem_insert, h.edge_mutual]
    · simp [hx, hy, h.edge_mutual]
  · intro x
    rw [makePointerTo_ptsTo, makePointerTo_dom]
    have hsub : s.ptsTo x ⊆ insert t (insert v s.dom) :=
      (h.ptsTo_dom x).trans
        ((Finset.subset_insert _ _).trans (Finset.subset_insert _ _))
    by_cases hx : x = v
    · simp only [if_pos hx]
      exact Finset.insert_subset (Finset.mem_insert_self t _) hsub
    · simp only [if_neg hx]
      exact hsub
  · intro x
    rw [makePointerTo_ptdFrom, makePointerTo_dom]
    have hsub : s.ptdFrom x ⊆ insert t (insert v s.dom) :=
      (h.ptdFrom_dom x).trans
        ((Finset.subset_insert _ _).trans (Finset.subset_insert _ _))
    by_cases hx : x = t
    · simp only [if_pos hx]
      exact Finset.insert_subset
        (Finset.mem_insert_of_mem (Finset.mem_insert_self v _)) hsub
    · simp only [if_neg hx]
      exact hsub
  · intro x hx
    rw [makePointerTo_dom] at hx
    have hxv : x ≠ v := fun hh => hx (hh ▸ Finset.mem_insert_of_mem (Finset.mem_insert_self _ _))
    have hxt : x ≠ t := fun hh => hx (hh ▸ Finset.mem_insert_self _ _)
    have hxd : x ∉ s.dom := fun hh =>
      hx (Finset.mem_insert_of_mem (Finset.mem_insert_of_mem hh))
    rw [makePointerTo_ptsTo, makePointerTo_ptdFrom]
    simp [hxv, hxt, h.off_dom x hxd]
  · intro p hp
    rw [makePointerTo_dom]
    exact Finset.mem_insert_of_mem (Finset.mem_insert_of_mem (h.writes_dom p hp))

theorem wf_setWildcard {s : State} (h : WF s) (v : Value) : WF (setWildcard s v) :=
  ⟨h.edge_mutual, h.ptsTo_dom, h.ptdFrom_dom, h.off_dom, h.writes_dom⟩

theorem wf_registerWrite {s : State} (h : WF s) (v : Value) (n : NodeId) :
    WF (registerWrite s v n) := by
  refine ⟨h.edge_mutual, h.ptsTo_dom, h.ptdFrom_dom, h.off_dom, ?_⟩
  intro p hp
  simp only [registerWrite] at hp
  by_cases hv : v ∈ s.dom
  · rw [if_pos hv] at hp
    rcases Finset.mem_insert.mp hp with hp | hp
    · simp [registerWrite, hp, hv]
    · exact h.writes_dom p hp
  · rw [if_neg hv] at hp
    exact h.writes_dom p hp

theorem wf_applyOp {s : State} (h : WF s) (op : Op) : WF (applyOp s op) := by
  cases op with
  | mkFresh v =>
    simp only [applyOp, makeFreshValue]
    by_cases hv : v ∈ s.dom
    · simpa [hv] using h
    · simpa [hv] using wf_addVertex h v
  | mkPtr v t => exact wf_makePointerTo h v t
  | setWild v => exact wf_setWildcard h v
  | regWrite v n => exact wf_registerWrite h v n

theorem wf_foldl {s : State} (h : WF s) (ops : List Op) : WF (ops.foldl applyOp s) := by
  induction ops generalizing s with
  | nil => exact h
  | cons op rest ih => exact ih (wf_applyOp h op)

theorem wf_applyOps (ops : List Op) : WF (applyOps ops) :=
  wf_foldl wf_init ops

theorem subset_bfsStep (s : State) (dir : BfsDirection) (t : Finset Value) :
    t ⊆ bfsStep s dir t :=
  Finset.subset_union_left

theorem bfsStep_mono (s : State) (dir : BfsDirection) {t u : Finset Value}
    (h : t ⊆ u) : bfsStep s dir t ⊆ bfsStep s dir u := by
  unfold bfsStep
  exact Finset.union_subset_union h (Finset.biUnion_subset_biUnion_of_subset_left _ h)

theorem mem_bfsStep {s : State} {dir : BfsDirection} {t : Finset Value} {x : Value} :
    x ∈ bfsStep s dir t ↔ x ∈ t ∨ ∃ y ∈ t, x ∈ succs s dir y := by
  simp [bfsStep]

theorem subset_iterate (s : State) (dir : BfsDirection) (n : ℕ) :
    ∀ t : Finset Value, t ⊆ (bfsStep s dir)^[n] t := by
  induction n with
  | zero =>
    intro t
    simp
  | succ n ih =>
    intro t
    rw [Function.iterate_succ_apply]
    exact (subset_bfsStep s dir t).trans (ih (bfsStep s dir t))

theorem iterate_mono (s : State) (dir : BfsDirection) (n : ℕ) :
    ∀ {t u : Finset Value}, t ⊆ u →
      (bfsStep s dir)^[n] t ⊆ (bfsStep s dir)^[n] u := by
  induction n with
  | zero =>
    intro t u h
    simpa
  | succ n ih =>
    intro t u h
    rw [Function.iterate_succ_apply, Function.iterate_succ_apply]
    exact ih (bfsStep_mono s dir h)

theorem mem_iterate_biUnion (s : State) (dir : BfsDirection) (n : ℕ) :
    ∀ (t : Finset Value) (x : Value),
      x ∈ (bfsStep s dir)^[n] t ↔ ∃ y ∈ t, x ∈ (bfsStep s dir)^[n] {y} := by
  induction n with
  | zero =>
    intro t x
    simp
  | succ n ih =>
    intro t x
    rw [Function.iterate_succ_apply', mem_bfsStep]
    constructor
    · rintro (hx | ⟨z, hz, hxz⟩)
      · obtain ⟨y, hy, hxy⟩ := (ih t x).mp hx
        refine ⟨y, hy, ?_⟩
        rw [Function.iterate_succ_apply']
        exact mem_bfsStep.mpr (Or.inl hxy)
      · obtain ⟨y, hy, hzy⟩ := (ih t z).mp hz
        refine ⟨y, hy, ?_⟩
        rw [Function.iterate_succ_apply']
        exact mem_bfsStep.mpr (Or.inr ⟨z, hzy, hxz⟩)
    · rintro ⟨y, hy, hxy⟩
      rw [Function.iterate_succ_apply', mem_bfsStep] at hxy
      rcases hxy with hx | ⟨z, hz, hxz⟩
      · exact Or.inl ((ih t x).mpr ⟨y, hy, hx⟩)
      · exact Or.inr ⟨z, (ih t z).mpr ⟨y, hy, hz⟩, hxz⟩

theorem iterate_symm_aux (s : State) (dir : BfsDirection)
    (hsymm : ∀ a b, b ∈ succs s dir a ↔ a ∈ succs s dir b) :
    ∀ (n : ℕ) (u v : Value),
      u ∈ (bfsStep s dir)^[n] {v} → v ∈ (bfsStep s dir)^[n] {u} := by
  intro n
  induction n with
  | zero =>
    intro u v h
    simpa [eq_comm] using h
  | succ n ih =>
    intro u v hu
    rw [Function.iterate_succ_apply', mem_bfsStep] at hu
    rw [Function.iterate_succ_apply]
    rcases hu with hu | ⟨z, hz, husucc⟩
    · exact iterate_mono s dir n (subset_bfsStep s dir {u}) (ih u v hu)
    · have hz' : v ∈ (bfsStep s dir)^[n] {z} := ih z v hz
      have hzu : z ∈ bfsStep s dir {u} :=
        mem_bfsStep.mpr (Or.inr ⟨u, Finset.mem_singleton_self u, (hsymm z u).mp husucc⟩)
      exact (mem_iterate_biUnion s dir n _ v).mpr ⟨z, hzu, hz'⟩

theorem iterate_stab (s : State) (dir : BfsDirection) (t : Finset Value) {n : ℕ}
    (h : (bfsStep s dir)^[n + 1] t = (bfsStep s dir)^[n] t) (k : ℕ) :
    (bfsStep s dir)^[n + k] t = (bfsStep s dir)^[n] t := by
  induction k with
  | zero => rfl
  | succ k ih =>
    have hnk : n + (k + 1) = (n + k) + 1 := rfl
    rw [hnk, Function.iterate_succ_apply', ih,
      (Function.iterate_succ_apply' (bfsStep s dir) n t).symm]
    exact h

theorem iterate_growth (s : State) (dir : BfsDirection) (t : Finset Value) :
    ∀ n : ℕ, (∃ k, k < n ∧ (bfsStep s dir)^[k + 1] t = (bfsStep s dir)^[k] t) ∨
      t.card + n ≤ ((bfsStep s dir)^[n] t).card := by
  intro n
  induction n with
  | zero =>
    right
    simp
  | succ n ih =>
    rcases ih with ⟨k, hk, hstab⟩ | hcard
    · exact Or.inl ⟨k, Nat.lt_succ_of_lt hk, hstab⟩
    · by_cases hstep : (bfsStep s dir)^[n + 1] t = (bfsStep s dir)^[n] t
      · exact Or.inl ⟨n, Nat.lt_succ_self n, hstep⟩
      · right
        have hsub : (bfsStep s dir)^[n] t ⊆ (bfsStep s dir)^[n + 1] t := by
          rw [Function.iterate_succ_apply']
          exact subset_bfsStep s dir _
        have hss : (bfsStep s dir)^[n] t ⊂ (bfsStep s dir)^[n + 1] t :=
          Finset.ssubset_iff_subset_ne.mpr ⟨hsub, fun hh => hstep hh.symm⟩
        have := Finset.card_lt_card hss
        omega

theorem iterate_subset_dom (s : State) (dir : BfsDirection)
    (hd : ∀ x, succs s dir x ⊆ s.dom) (n : ℕ) :
    ∀ t : Finset Value, t ⊆ s.dom → (bfsStep s dir)^[n] t ⊆ s.dom := by
  induction n with
  | zero =>
    intro t ht
    simpa
  | succ n ih =>
    intro t ht
    rw [Function.iterate_succ_apply]
    apply ih
    exact Finset.union_subset ht (Finset.biUnion_subset.mpr fun y _ => hd y)

theorem reach_fixed {s : State} {dir : BfsDirection} {v : Value}
    (hd : ∀ x, succs s dir x ⊆ s.dom) (hv : v ∈ s.dom) :
    bfsStep s dir (reach s dir v) = reach s dir v := by
  rcases iterate_growth s dir {v} s.dom.card with ⟨k, hk, hstab⟩ | hcard
  · unfold reach
    have h1 : (bfsStep s dir)^[s.dom.card] {v} = (bfsStep s dir)^[k] {v} := by
      have hh := iterate_stab s dir {v} hstab (s.dom.card - k)
      rwa [Nat.add_sub_cancel' (Nat.le_of_lt hk)] at hh
    rw [h1, (Function.iterate_succ_apply' (bfsStep s dir) k {v}).symm]
    exact hstab
  · exfalso
    have hsub : (bfsStep s dir)^[s.dom.card] {v} ⊆ s.dom :=
      iterate_subset_dom s dir hd s.dom.card {v} (Finset.singleton_subset_iff.mpr hv)
    have hle := Finset.card_le_card hsub
    simp only [Finset.card_singleton] at hcard
    omega

theorem iterate_subset_of_closed {s : State} {dir : BfsDirection} {R : Finset Value}
    (hR : bfsStep s dir R = R) (n : ℕ) :
    ∀ t : Finset Value, t ⊆ R → (bfsStep s dir)^[n] t ⊆ R := by
  induction n with
  | zero =>
    intro t ht
    simpa
  | succ n ih =>
    intro t ht
    rw [Function.iterate_succ_apply]
    apply ih
    rw [← hR]
    exact bfsStep_mono s dir ht

theorem reach_subset_of_mem {s : State} {dir : BfsDirection} {v w : Value}
    (hd : ∀ x, succs s dir x ⊆ s.dom) (hv : v ∈ s.dom)
    (hw : w ∈ reach s dir v) : reach s dir w ⊆ reach s dir v :=
  iterate_subset_of_closed (reach_fixed hd hv) s.dom.card {w}
    (Finset.singleton_subset_iff.mpr hw)

theorem self_mem_reach (s : State) (dir : BfsDirection) (v : Value) :
    v ∈ reach s dir v :=
  subset_iterate s dir s.dom.card {v} (Finset.mem_singleton_self v)

theorem succs_subset_dom {s : State} (h : WF s) (dir : BfsDirection) (x : Value) :
    succs s dir x ⊆ s.dom := by
  cases dir with
  | POINTS_TO => exact h.ptsTo_dom x
  | POINTED_FROM => exact h.ptdFrom_dom x
  | BOTH => exact Finset.union_subset (h.ptsTo_dom x) (h.ptdFrom_dom x)

theorem reach_subset_dom {s : State} (h : WF s) {dir : BfsDirection} {v : Value}
    (hv : v ∈ s.dom) : reach s dir v ⊆ s.dom :=
  iterate_subset_dom s dir (succs_subset_dom h dir) s.dom.card {v}
    (Finset.singleton_subset_iff.mpr hv)

theorem succs_both_symm {s : State} (h : WF s) (a b : Value) :
    b ∈ succs s .BOTH a ↔ a ∈ succs s .BOTH b := by
  simp only [succs, Finset.mem_union]
  rw [h.edge_mutual a b, ← h.edge_mutual b a]
  exact or_comm

theorem mem_reach_symm {s : State} (h : WF s) (u v : Value) :
    u ∈ reach s .BOTH v ↔ v ∈ reach s .BOTH u :=
  ⟨fun hh => iterate_symm_aux s .BOTH (succs_both_symm h) _ u v hh,
   fun hh => iterate_symm_aux s .BOTH (succs_both_symm h) _ v u hh⟩

theorem bool_eq_of_iff {x y : Bool} (h : x = true ↔ y = true) : x = y := by
  cases x <;> cases y <;> simp_all

theorem groupLocs_nil (s : State) : groupLocs s [] = ∅ := rfl

theorem groupLocs_cons (s : State) (v : Value) (rest : List Value) :
    groupLocs s (v :: rest) =
      (if v ∈ s.dom then getMemoryLocations s v else ∅) ∪ groupLocs s rest := rfl

theorem mem_groupLocs {s : State} {a : List Value} {x : Value} :
    x ∈ groupLocs s a ↔ ∃ v ∈ a, v ∈ s.dom ∧ x ∈ getMemoryLocations s v := by
  induction a with
  | nil => simp [groupLocs_nil]
  | cons v rest ih =>
    rw [groupLocs_cons]
    by_cases hv : v ∈ s.dom <;>
      simp [hv, ih, List.exists_mem_cons_iff]

theorem accumLocs_eq_none {s : State} {a : List Value} :
    ∀ acc : Finset Value,
      accumLocs s a acc = none ↔ ∃ v ∈ a, isWildcard s v = true := by
  induction a with
  | nil =>
    intro acc
    simp [accumLocs]
  | cons v rest ih =>
    intro acc
    by_cases hw : isWildcard s v = true <;>
      simp [accumLocs, hw, ih, List.exists_mem_cons_iff]

theorem accumLocs_eq_some {s : State} {a : List Value} :
    ∀ acc : Finset Value, (∀ v ∈ a, isWildcard s v = false) →
      accumLocs s a acc = some (acc ∪ groupLocs s a) := by
  induction a with
  | nil =>
    intro acc _
    simp [accumLocs, groupLocs_nil]
  | cons v rest ih =>
    intro acc hnw
    have hv : isWildcard s v = false := hnw v (List.mem_cons_self v rest)
    have hrest : ∀ w ∈ rest, isWildcard s w = false := fun w hw =>
      hnw w (List.mem_cons_of_mem v hw)
    rw [groupLocs_cons]
    by_cases hd : v ∈ s.dom
    · simp only [accumLocs, hv, Bool.false_eq_true, if_false, hd, if_true,
        ih (acc ∪ getMemoryLocations s v) hrest, if_pos hd]
      rw [Finset.union_assoc]
    · simp only [accumLocs, hv, Bool.false_eq_true, if_false, hd,
        ih acc hrest, if_neg hd]
      rw [Finset.empty_union]

theorem probeLocs_iff {s : State} {locs : Finset Value} {b : List Value} :
    probeLocs s locs b = true ↔
      ∃ v ∈ b, isWildcard s v = true ∨
        (v ∈ s.dom ∧ (getMemoryLocations s v ∩ locs).Nonempty) := by
  induction b with
  | nil => simp [probeLocs]
  | cons v rest ih =>
    by_cases hw : isWildcard s v = true
    · simp [probeLocs, hw, List.exists_mem_cons_iff]
    · by_cases hd : v ∈ s.dom ∧ (getMemoryLocations s v ∩ locs).Nonempty <;>
        simp [probeLocs, hw, hd, ih, List.exists_mem_cons_iff]

theorem inter_groupLocs_nonempty {s : State} {a : List Value} {y : Value} :
    (getMemoryLocations s y ∩ groupLocs s a).Nonempty ↔
      ∃ x ∈ a, x ∈ s.dom ∧
        (getMemoryLocations s x ∩ getMemoryLocations s y).Nonempty := by
  constructor
  · rintro ⟨z, hz⟩
    rw [Finset.mem_inter] at hz
    obtain ⟨x, hxa, hxdom, hzx⟩ := mem_groupLocs.mp hz.2
    exact ⟨x, hxa, hxdom, ⟨z, Finset.mem_inter.mpr ⟨hzx, hz.1⟩⟩⟩
  · rintro ⟨x, hxa, hxdom, z, hz⟩
    rw [Finset.mem_inter] at hz
    exact ⟨z, Finset.mem_inter.mpr ⟨hz.2, mem_groupLocs.mpr ⟨x, hxa, hxdom, hz.1⟩⟩⟩

theorem mayAliasGroup_eq_true_iff {s : State} {a b : List Value} :
    mayAliasGroup s a b = true ↔
      a ≠ [] ∧ b ≠ [] ∧
        ((∃ v ∈ a, isWildcard s v = true) ∨ (∃ v ∈ b, isWildcard s v = true) ∨
          ∃ x ∈ a, ∃ y ∈ b, x ∈ s.dom ∧ y ∈ s.dom ∧
            (getMemoryLocations s x ∩ getMemoryLocations s y).Nonempty) := by
  unfold mayAliasGroup
  by_cases ha : a = []
  · simp [ha]
  by_cases hb : b = []
  · simp [hb]
  have hae : a.isEmpty = false := by
    simpa [List.isEmpty_iff] using ha
  have hbe : b.isEmpty = false := by
    simpa [List.isEmpty_iff] using hb
  rw [hae, hbe]
  by_cases hwild : ∃ v ∈ a, isWildcard s v = true
  · rw [(accumLocs_eq_none ∅).mpr hwild]
    simp [ha, hb, hwild]
  · have hnw : ∀ v ∈ a, isWildcard s v = false := by
      intro v hv
      rcases Bool.eq_false_or_eq_true (isWildcard s v) with h | h
      · exact absurd ⟨v, hv, h⟩ hwild
      · exact h
    rw [accumLocs_eq_some ∅ hnw]
    show probeLocs s (∅ ∪ groupLocs s a) b = true ↔ _
    rw [Finset.empty_union, probeLocs_iff]
    simp only [inter_groupLocs_nonempty]
    constructor
    · rintro ⟨y, hyb, hw | ⟨hydom, x, hxa, hxdom, hne⟩⟩
      · exact ⟨ha, hb, Or.inr (Or.inl ⟨y, hyb, hw⟩)⟩
      · exact ⟨ha, hb, Or.inr (Or.inr ⟨x, hxa, y, hyb, hxdom, hydom, hne⟩)⟩
    · rintro ⟨-, -, ⟨x, hxa, hw⟩ | ⟨y, hyb, hw⟩ | ⟨x, hxa, y, hyb, hxdom, hydom, hne⟩⟩
      · exact absurd ⟨x, hxa, hw⟩ hwild
      · exact ⟨y, hyb, Or.inl hw⟩
      · exact ⟨y, hyb, Or.inr ⟨hydom, x, hxa, hxdom, hne⟩⟩

theorem mayAlias_eq_true_iff {s : State} {x y : Value} :
    mayAlias s x y = true ↔
      isWildcard s x = true ∨ isWildcard s y = true ∨
        (x ∈ s.dom ∧ y ∈ s.dom ∧
          (getMemoryLocations s x ∩ getMemoryLocations s y).Nonempty) := by
  unfold mayAlias closureOf
  by_cases hx : x ∈ s.dom <;> by_cases hy : y ∈ s.dom <;>
    simp [hx, hy, or_assoc]

theorem mayAliasGroup_congr {s : State} {a a' b b' : List Value}
    (ha : ∀ x, x ∈ a ↔ x ∈ a') (hb : ∀ y, y ∈ b ↔ y ∈ b') :
    mayAliasGroup s a b = mayAliasGroup s a' b' := by
  apply bool_eq_of_iff
  rw [mayAliasGroup_eq_true_iff, mayAliasGroup_eq_true_iff]
  simp only [ne_eq, List.eq_nil_iff_forall_not_mem, ha, hb]

theorem cacheOK_init : CacheOK CachedState.init := by
  intro h
  simp [CachedState.init] at h

theorem ensureFresh_base (c : CachedState) : (ensureFresh c).base = c.base := by
  unfold ensureFresh
  by_cases h : c.cacheStale <;> simp [h]

theorem ensureFresh_memLocs {c : CachedState} (h : CacheOK c) (v : Value) :
    (ensureFresh c).cachedMemLocs v = getMemoryLocations c.base v := by
  unfold ensureFresh
  by_cases hs : c.cacheStale
  · simp [hs]
  · have hf : c.cacheStale = false := by simpa using hs
    simp [hs, (h hf).1 v]

theorem ensureFresh_written {c : CachedState} (h : CacheOK c) :
    (ensureFresh c).cachedWrittenToLocs = writtenToLocs c.base := by
  unfold ensureFresh
  by_cases hs : c.cacheStale
  · simp [hs]
  · have hf : c.cacheStale = false := by simpa using hs
    simp [hs, (h hf).2]

theorem cacheOK_ensureFresh {c : CachedState} (h : CacheOK c) :
    CacheOK (ensureFresh c) := by
  intro _
  rw [ensureFresh_base]
  exact ⟨ensureFresh_memLocs h, ensureFresh_written h⟩

theorem getMemoryLocations_setWildcard (s : State) (w v : Value) :
    getMemoryLocations (setWildcard s w) v = getMemoryLocations s v := rfl

theorem writtenToLocs_setWildcard (s : State) (w : Value) :
    writtenToLocs (setWildcard s w) = writtenToLocs s := rfl

theorem cacheOK_applyMut {c : CachedState} (h : CacheOK c) (op : Op) :
    CacheOK (applyMut c op) := by
  cases op with
  | mkFresh v =>
    intro hst
    simp [applyMut] at hst
  | mkPtr v t =>
    intro hst
    simp [applyMut] at hst
  | setWild v =>
    intro hst
    have hc := h hst
    refine ⟨fun u => ?_, ?_⟩
    · show c.cachedMemLocs u = getMemoryLocations (setWildcard c.base v) u
      rw [getMemoryLocations_setWildcard]
      exact hc.1 u
    · show c.cachedWrittenToLocs = writtenToLocs (setWildcard c.base v)
      rw [writtenToLocs_setWildcard]
      exact hc.2
  | regWrite v n =>
    intro hst
    simp [applyMut] at hst

theorem runC_foldl_spec :
    ∀ (ops : List COp) (c : CachedState), CacheOK c →
      CacheOK (ops.foldl applyCOp c) ∧
      (ops.foldl applyCOp c).base = (mutationsOf ops).foldl applyOp c.base := by
  intro ops
  induction ops with
  | nil =>
    intro c hc
    exact ⟨hc, rfl⟩
  | cons o rest ih =>
    intro c hc
    cases o with
    | mutate op =>
      have h2 := ih (applyMut c op) (cacheOK_applyMut hc op)
      exact ⟨h2.1, h2.2⟩
    | qMayAlias a b =>
      have h2 := ih (ensureFresh c) (cacheOK_ensureFresh hc)
      refine ⟨h2.1, ?_⟩
      show (List.foldl applyCOp (ensureFresh c) rest).base =
        List.foldl applyOp c.base (mutationsOf rest)
      rw [h2.2, ensureFresh_base]
    | qMayAliasGroup a b =>
      have h2 := ih (ensureFresh c) (cacheOK_ensureFresh hc)
      refine ⟨h2.1, ?_⟩
      show (List.foldl applyCOp (ensureFresh c) rest).base =
        List.foldl applyOp c.base (mutationsOf rest)
      rw [h2.2, ensureFresh_base]
    | qWritesTo n v =>
      have h2 := ih c hc
      exact ⟨h2.1, h2.2⟩
    | qHasWriters v =>
      have h2 := ih (ensureFresh c) (cacheOK_ensureFresh hc)
      refine ⟨h2.1, ?_⟩
      show (List.foldl applyCOp (ensureFresh c) rest).base =
        List.foldl applyOp c.base (mutationsOf rest)
      rw [h2.2, ensureFresh_base]
    | qGetAliases v =>
      have h2 := ih (ensureFresh c) (cacheOK_ensureFresh hc)
      refine ⟨h2.1, ?_⟩
      show (List.foldl applyCOp (ensureFresh c) rest).base =
        List.foldl applyOp c.base (mutationsOf rest)
      rw [h2.2, ensureFresh_base]

theorem closureOfC_eq {c : CachedState} (h : CacheOK c) (v : Value) :
    closureOfC (ensureFresh c) v = closureOf c.base v := by
  unfold closureOfC closureOf
  by_cases hd : v ∈ c.base.dom <;>
    simp [hd, ensureFresh_base, ensureFresh_memLocs h]

theorem mayAliasC_eq {c : CachedState} (h : CacheOK c) (a b : Value) :
    (mayAliasC c a b).1 = mayAlias c.base a b := by
  unfold mayAliasC mayAlias
  simp only [ensureFresh_base, closureOfC_eq h]

theorem accumLocsC_eq {c : CachedState} (h : CacheOK c) :
    ∀ (l : List Value) (acc : Finset Value),
      accumLocsC (ensureFresh c) l acc = accumLocs c.base l acc := by
  intro l
  induction l with
  | nil =>
    intro acc
    rfl
  | cons v rest ih =>
    intro acc
    unfold accumLocsC accumLocs
    rw [ensureFresh_base]
    by_cases hw : isWildcard c.base v = true
    · simp [hw]
    · by_cases hd : v ∈ c.base.dom <;>
        simp [hw, hd, ih, ensureFresh_base, ensureFresh_memLocs h]

theorem probeLocsC_eq {c : CachedState} (h : CacheOK c) (locs : Finset Value) :
    ∀ l : List Value,
      probeLocsC (ensureFresh c) locs l = probeLocs c.base locs l := by
  intro l
  induction l with
  | nil => rfl
  | cons v rest ih =>
    unfold probeLocsC probeLocs
    rw [ensureFresh_base]
    by_cases hw : isWildcard c.base v = true
    · simp [hw]
    · by_cases hd : v ∈ c.base.dom <;>
        simp [hw, hd, ih, ensureFresh_base, ensureFresh_memLocs h]

theorem mayAliasGroupC_eq {c : CachedState} (h : CacheOK c) (a b : List Value) :
    (mayAliasGroupC c a b).1 = mayAliasGroup c.base a b := by
  unfold mayAliasGroupC mayAliasGroup
  by_cases he : a.isEmpty || b.isEmpty
  · simp [he]
  · simp only [he, if_false, accumLocsC_eq h, probeLocsC_eq h]

theorem hasWritersC_eq {c : CachedState} (h : CacheOK c) (v : Value) :
    (hasWritersC c v).1 = hasWriters c.base v := by
  unfold hasWritersC hasWriters
  simp only [ensureFresh_base, closureOfC_eq h, ensureFresh_written h,
    ensureFresh_memLocs h]

theorem getAliasesC_eq {c : CachedState} (v : Value) :
    (getAliasesC c v).1 = getAliases c.base v := by
  show getAliases (ensureFresh c).base v = getAliases c.base v
  rw [ensureFresh_base]

/-- Swapping the two groups in the characterization of the group query. -/
theorem groupCond_swap {s : State} {a b : List Value}
    (h : a ≠ [] ∧ b ≠ [] ∧
      ((∃ v ∈ a, isWildcard s v = true) ∨ (∃ v ∈ b, isWildcard s v = true) ∨
        ∃ x ∈ a, ∃ y ∈ b, x ∈ s.dom ∧ y ∈ s.dom ∧
          (getMemoryLocations s x ∩ getMemoryLocations s y).Nonempty)) :
    b ≠ [] ∧ a ≠ [] ∧
      ((∃ v ∈ b, isWildcard s v = true) ∨ (∃ v ∈ a, isWildcard s v = true) ∨
        ∃ x ∈ b, ∃ y ∈ a, x ∈ s.dom ∧ y ∈ s.dom ∧
          (getMemoryLocations s x ∩ getMemoryLocations s y).Nonempty) := by
  obtain ⟨ha, hb, hcase⟩ := h
  refine ⟨hb, ha, ?_⟩
  rcases hcase with hw | hw | ⟨x, hx, y, hy, hxd, hyd, hne⟩
  · exact Or.inr (Or.inl hw)
  · exact Or.inl hw
  · exact Or.inr (Or.inr ⟨y, hy, x, hx, hyd, hxd, by rwa [Finset.inter_comm] at hne⟩)

/-! The claims. -/

/-- C1: for every graph state and every pair of duplicate-tolerant groups, the
group query `mayAlias(groupA, groupB)` is true iff some member of group A and
some member of group B are pairwise may-aliasing, and adding or removing a
duplicate occurrence of an element of either group never changes the result. -/
theorem group_pairwise_equivalence (s : State) (a b : List Value) :
    (mayAliasGroup s a b = true ↔ ∃ x ∈ a, ∃ y ∈ b, mayAlias s x y = true) ∧
    (∀ u ∈ a, mayAliasGroup s (u :: a) b = mayAliasGroup s a b) ∧
    (∀ u ∈ b, mayAliasGroup s a (u :: b) = mayAliasGroup s a b) := by
  refine ⟨?_, ?_, ?_⟩
  · rw [mayAliasGroup_eq_true_iff]
    constructor
    · rintro ⟨ha, hb, hcase⟩
      obtain ⟨x0, hx0⟩ := List.exists_mem_of_ne_nil a ha
      obtain ⟨y0, hy0⟩ := List.exists_mem_of_ne_nil b hb
      rcases hcase with ⟨x, hx, hw⟩ | ⟨y, hy, hw⟩ | ⟨x, hx, y, hy, hxd, hyd, hne⟩
      · exact ⟨x, hx, y0, hy0, mayAlias_eq_true_iff.mpr (Or.inl hw)⟩
      · exact ⟨x0, hx0, y, hy, mayAlias_eq_true_iff.mpr (Or.inr (Or.inl hw))⟩
      · exact ⟨x, hx, y, hy, mayAlias_eq_true_iff.mpr (Or.inr (Or.inr ⟨hxd, hyd, hne⟩))⟩
    · rintro ⟨x, hx, y, hy, hxy⟩
      refine ⟨List.ne_nil_of_mem hx, List.ne_nil_of_mem hy, ?_⟩
      rcases mayAlias_eq_true_iff.mp hxy with hw | hw | ⟨hxd, hyd, hne⟩
      · exact Or.inl ⟨x, hx, hw⟩
      · exact Or.inr (Or.inl ⟨y, hy, hw⟩)
      · exact Or.inr (Or.inr ⟨x, hx, y, hy, hxd, hyd, hne⟩)
  · intro u hu
    refine mayAliasGroup_congr (fun x => ?_) (fun y => Iff.rfl)
    exact ⟨fun hx => (List.mem_cons.mp hx).elim (fun h => h ▸ hu) id,
      List.mem_cons_of_mem u⟩
  · intro u hu
    refine mayAliasGroup_congr (fun x => Iff.rfl) (fun y => ?_)
    exact ⟨fun hy => (List.mem_cons.mp hy).elim (fun h => h ▸ hu) id,
      List.mem_cons_of_mem u⟩

/-- Witness for C1 at a concrete state and groups: duplicating the member 0 of
group A does not change the group query. -/
theorem group_pairwise_equivalence_witness :
    mayAliasGroup (applyOps [.mkPtr 0 1]) [0, 0] [1] =
      mayAliasGroup (applyOps [.mkPtr 0 1]) [0] [1] :=
  (group_pairwise_equivalence (applyOps [.mkPtr 0 1]) [0] [1]).2.1 0 (by decide)

/-- C2: after any interleaved sequence of mutations and queries, the base
state of the cached engine is the state the mutation subsequence alone
produces from scratch, and each of the queries computed through the
staleness-flag-guarded caches returns exactly the from-scratch result while
leaving the externally observable state unchanged. -/
theorem cache_transparency (ops : List COp) :
    (runC ops).base = applyOps (mutationsOf ops) ∧
    (∀ a b : Value,
      (mayAliasC (runC ops) a b).1 = mayAlias (applyOps (mutationsOf ops)) a b ∧
      ((mayAliasC (runC ops) a b).2).base = (runC ops).base) ∧
    (∀ a b : List Value,
      (mayAliasGroupC (runC ops) a b).1 =
        mayAliasGroup (applyOps (mutationsOf ops)) a b ∧
      ((mayAliasGroupC (runC ops) a b).2).base = (runC ops).base) ∧
    (∀ (n : NodeId) (v : Value),
      (writesToC (runC ops) n v).1 = writesTo (applyOps (mutationsOf ops)) n v ∧
      ((writesToC (runC ops) n v).2).base = (runC ops).base) ∧
    (∀ v : Value,
      (hasWritersC (runC ops) v).1 = hasWriters (applyOps (mutationsOf ops)) v ∧
      ((hasWritersC (runC ops) v).2).base = (runC ops).base) ∧
    (∀ v : Value,
      (getAliasesC (runC ops) v).1 = getAliases (applyOps (mutationsOf ops)) v ∧
      ((getAliasesC (runC ops) v).2).base = (runC ops).base) := by
  obtain ⟨hok, hbase⟩ := runC_foldl_spec ops CachedState.init cacheOK_init
  have hokr : CacheOK (runC ops) := hok
  have hb : (runC ops).base = applyOps (mutationsOf ops) := hbase
  refine ⟨hb, ?_, ?_, ?_, ?_, ?_⟩
  · intro a b
    exact ⟨by rw [mayAliasC_eq hokr, hb], ensureFresh_base _⟩
  · intro a b
    exact ⟨by rw [mayAliasGroupC_eq hokr, hb], ensureFresh_base _⟩
  · intro n v
    exact ⟨by
      rw [show (writesToC (runC ops) n v).1 = writesTo (runC ops).base n v from rfl, hb],
      rfl⟩
  · intro v
    exact ⟨by rw [hasWritersC_eq hokr, hb], ensureFresh_base _⟩
  · intro v
    exact ⟨by rw [getAliasesC_eq, hb], ensureFresh_base _⟩

/-- C3: a wildcard aliases everything — pairwise, `mayAlias(w, x)` is true for
any `x` (registered or not) whenever `w` is a wildcard, and in the group form
a wildcard member of either group makes the result true as long as the other
group is non-empty. -/
theorem wildcard_absorption (s : State) (w : Value) (hw : isWildcard s w = true) :
    (∀ x : Value, mayAlias s w x = true ∧ mayAlias s x w = true) ∧
    (∀ a b : List Value, w ∈ a → b ≠ [] → mayAliasGroup s a b = true) ∧
    (∀ a b : List Value, w ∈ b → a ≠ [] → mayAliasGroup s a b = true) := by
  refine ⟨?_, ?_, ?_⟩
  · intro x
    constructor <;> simp [mayAlias, hw]
  · intro a b hwa hb
    rw [mayAliasGroup_eq_true_iff]
    exact ⟨List.ne_nil_of_mem hwa, hb, Or.inl ⟨w, hwa, hw⟩⟩
  · intro a b hwb ha
    rw [mayAliasGroup_eq_true_iff]
    exact ⟨ha, List.ne_nil_of_mem hwb, Or.inr (Or.inl ⟨w, hwb, hw⟩)⟩

/-- Witness for C3: wildcard 3 aliases the unregistered value 99 pairwise, and
its presence in a group makes the group query true. -/
theorem wildcard_absorption_witness :
    mayAlias (setWildcard State.init 3) 3 99 = true ∧
    mayAliasGroup (setWildcard State.init 3) [7, 3] [99] = true :=
  ⟨((wildcard_absorption (setWildcard State.init 3) 3 (by decide)).1 99).1,
   (wildcard_absorption (setWildcard State.init 3) 3 (by decide)).2.1 [7, 3] [99]
     (by decide) (by decide)⟩

/-- C4: an empty group on either side makes the group query false, no matter
what the other group holds. -/
theorem empty_group_false (s : State) (a b : List Value) (h : a = [] ∨ b = []) :
    mayAliasGroup s a b = false := by
  rcases h with h | h <;> subst h <;> simp [mayAliasGroup]

/-- Witness for C4: both orientations at a state whose other group holds a
wildcard. -/
theorem empty_group_false_witness :
    mayAliasGroup (setWildcard State.init 0) [] [0] = false ∧
    mayAliasGroup (setWildcard State.init 0) [0] [] = false :=
  ⟨empty_group_false (setWildcard State.init 0) [] [0] (Or.inl rfl),
   empty_group_false (setWildcard State.init 0) [0] [] (Or.inr rfl)⟩

/-- C5 counterexample: an unregistered, non-wildcard value is not always
inert.  Adding it to an empty group defeats the emptiness check: with
wildcard 0 and the untracked value 1, the query over ([], [0]) is false but
over ([1], [0]) it is true. -/
theorem inert_value_counterexample :
    contains (setWildcard State.init 0) 1 = false ∧
    isWildcard (setWildcard State.init 0) 1 = false ∧
    mayAliasGroup (setWildcard State.init 0) [] [0] = false ∧
    mayAliasGroup (setWildcard State.init 0) [1] [0] = true := by
  decide

/-- C5 (amended): a value that was never registered and is not a wildcard
never causes a true result and never short-circuits, so adding it to or
removing it from a group that is non-empty without it leaves the group query
unchanged.  (The unamended claim fails when the value is added to an empty
group: the non-emptiness it creates re-enables the other group, as the
counterexample shows.) -/
theorem inert_value_in_group (s : State) (u : Value)
    (hd : contains s u = false) (hw : isWildcard s u = false) :
    (∀ a b : List Value, a ≠ [] → mayAliasGroup s (u :: a) b = mayAliasGroup s a b) ∧
    (∀ a b : List Value, b ≠ [] → mayAliasGroup s a (u :: b) = mayAliasGroup s a b) := by
  have hdom : u ∉ s.dom := by simpa [contains] using hd
  have hwild : isWildcard s u = true → False := by simp [hw]
  constructor
  · intro a b ha
    apply bool_eq_of_iff
    rw [mayAliasGroup_eq_true_iff, mayAliasGroup_eq_true_iff]
    constructor
    · rintro ⟨-, hb, hcase⟩
      refine ⟨ha, hb, ?_⟩
      rcases hcase with ⟨x, hx, hxw⟩ | hbw | ⟨x, hx, y, hy, hxd, hyd, hne⟩
      · rcases List.mem_cons.mp hx with rfl | hx
        · exact absurd hxw hwild
        · exact Or.inl ⟨x, hx, hxw⟩
      · exact Or.inr (Or.inl hbw)
      · rcases List.mem_cons.mp hx with rfl | hx
        · exact absurd hxd hdom
        · exact Or.inr (Or.inr ⟨x, hx, y, hy, hxd, hyd, hne⟩)
    · rintro ⟨-, hb, hcase⟩
      refine ⟨List.cons_ne_nil u a, hb, ?_⟩
      rcases hcase with ⟨x, hx, hxw⟩ | hbw | ⟨x, hx, y, hy, hxd, hyd, hne⟩
      · exact Or.inl ⟨x, List.mem_cons_of_mem u hx, hxw⟩
      · exact Or.inr (Or.inl hbw)
      · exact Or.inr (Or.inr ⟨x, List.mem_cons_of_mem u hx, y, hy, hxd, hyd, hne⟩)
  · intro a b hb
    apply bool_eq_of_iff
    rw [mayAliasGroup_eq_true_iff, mayAliasGroup_eq_true_iff]
    constructor
    · rintro ⟨ha, -, hcase⟩
      refine ⟨ha, hb, ?_⟩
      rcases hcase with haw | ⟨y, hy, hyw⟩ | ⟨x, hx, y, hy, hxd, hyd, hne⟩
      · exact Or.inl haw
      · rcases List.mem_cons.mp hy with rfl | hy
        · exact absurd hyw hwild
        · exact Or.inr (Or.inl ⟨y, hy, hyw⟩)
      · rcases List.mem_cons.mp hy with rfl | hy
        · exact absurd hyd hdom
        · exact Or.inr (Or.inr ⟨x, hx, y, hy, hxd, hyd, hne⟩)
    · rintro ⟨ha, -, hcase⟩
      refine ⟨ha, List.cons_ne_nil u b, ?_⟩
      rcases hcase with haw | ⟨y, hy, hyw⟩ | ⟨x, hx, y, hy, hxd, hyd, hne⟩
      · exact Or.inl haw
      · exact Or.inr (Or.inl ⟨y, List.mem_cons_of_mem u hy, hyw⟩)
      · exact Or.inr (Or.inr ⟨x, hx, y, List.mem_cons_of_mem u hy, hxd, hyd, hne⟩)

/-- Witness for the amended C5: adding the untracked, non-wildcard value 7 to
the non-empty group [0] leaves the query against [5] (a wildcard) unchanged. -/
theorem inert_value_in_group_witness :
    mayAliasGroup (setWildcard State.init 5) [7, 0] [5] =
      mayAliasGroup (setWildcard State.init 5) [0] [5] :=
  (inert_value_in_group (setWildcard State.init 5) 7 (by decide) (by decide)).1
    [0] [5] (by decide)

/-- C6: in every reachable engine state, Y is in the pointsTo set of X iff X
is in the pointedFrom set of Y — edge mutuality is an invariant of every
operation of the engine. -/
theorem edge_mutuality_invariant (ops : List Op) (x y : Value) :
    y ∈ (applyOps ops).ptsTo x ↔ x ∈ (applyOps ops).ptdFrom y :=
  (wf_applyOps ops).edge_mutual x y

/-- C7: in every reachable engine state, `writesTo(n, v)` implies
`hasWriters(v)`; the converse fails — there is a reachable state where some
value has writers via a write to an alias in its forward closure although the
writing instruction does not write it directly. -/
theorem writesTo_implies_hasWriters :
    (∀ (ops : List Op) (n : NodeId) (v : Value),
      writesTo (applyOps ops) n v = true → hasWriters (applyOps ops) v = true) ∧
    (∃ (ops : List Op) (n : NodeId) (v : Value),
      hasWriters (applyOps ops) v = true ∧ writesTo (applyOps ops) n v = false ∧
      ∃ u : Value, writesTo (applyOps ops) n u = true) := by
  constructor
  · intro ops n v hwr
    have hWF := wf_applyOps ops
    set s := applyOps ops with hs
    have hmem : (n, v) ∈ s.writeIndex := by simpa [writesTo] using hwr
    have hvdom : v ∈ s.dom := hWF.writes_dom (n, v) hmem
    have hne : (closureOf s v ∩ writtenToLocs s).Nonempty := by
      refine ⟨v, Finset.mem_inter.mpr ⟨?_, ?_⟩⟩
      · rw [closureOf, if_pos hvdom]
        exact self_mem_reach s .POINTS_TO v
      · exact Finset.mem_biUnion.mpr ⟨(n, v), hmem, self_mem_reach s .POINTS_TO v⟩
    unfold hasWriters
    rw [Bool.or_eq_true]
    left
    rw [decide_eq_true_eq]
    exact hne
  · exact ⟨[.mkPtr 0 1, .regWrite 1 5], 5, 0, by decide, by decide, 1, by decide⟩

/-- Witness for C7: the implication applied at the state built by
`makePointerTo(0, 1); registerWrite(1, 5)` and the directly written value 1. -/
theorem writesTo_implies_hasWriters_witness :
    hasWriters (applyOps [.mkPtr 0 1, .regWrite 1 5]) 1 = true :=
  writesTo_implies_hasWriters.1 [.mkPtr 0 1, .regWrite 1 5] 5 1 (by decide)

/-- C8: for every reachable state and registered value v, `getAliases(v)` is
exactly the set of other registered values whose bidirectional reachable set
meets that of v (the connected component of v); it never contains v, it is
unchanged by additions to the wildcard set, and membership is symmetric. -/
theorem getAliases_component (ops : List Op) (v : Value)
    (hv : v ∈ (applyOps ops).dom) :
    (∀ u, u ∈ getAliases (applyOps ops) v ↔
      u ∈ (applyOps ops).dom ∧ u ≠ v ∧
        (reach (applyOps ops) .BOTH u ∩ reach (applyOps ops) .BOTH v).Nonempty) ∧
    v ∉ getAliases (applyOps ops) v ∧
    (∀ w, getAliases (setWildcard (applyOps ops) w) v = getAliases (applyOps ops) v) ∧
    (∀ u, u ∈ getAliases (applyOps ops) v ↔ v ∈ getAliases (applyOps ops) u) := by
  have hWF := wf_applyOps ops
  set s := applyOps ops with hs
  refine ⟨?_, ?_, fun w => rfl, ?_⟩
  · intro u
    rw [getAliases, Finset.mem_erase]
    constructor
    · rintro ⟨hne, hr⟩
      refine ⟨reach_subset_dom hWF hv hr, hne, ?_⟩
      exact ⟨u, Finset.mem_inter.mpr ⟨self_mem_reach s .BOTH u, hr⟩⟩
    · rintro ⟨hud, hne, z, hz⟩
      rw [Finset.mem_inter] at hz
      refine ⟨hne, ?_⟩
      have hzu : u ∈ reach s .BOTH z := (mem_reach_symm hWF z u).mp hz.1
      exact reach_subset_of_mem (succs_subset_dom hWF .BOTH) hv hz.2 hzu
  · rw [getAliases]
    exact Finset.not_mem_erase v _
  · intro u
    rw [getAliases, getAliases, Finset.mem_erase, Finset.mem_erase]
    constructor
    · rintro ⟨hne, hr⟩
      exact ⟨hne.symm, (mem_reach_symm hWF u v).mp hr⟩
    · rintro ⟨hne, hr⟩
      exact ⟨hne.symm, (mem_reach_symm hWF v u).mp hr⟩

/-- Witness for C8: the component characterization applied to the registered
value 0 of the state built by `makePointerTo(0, 1); makePointerTo(2, 1)`. -/
theorem getAliases_component_witness :
    0 ∉ getAliases (applyOps [.mkPtr 0 1, .mkPtr 2 1]) 0 :=
  (getAliases_component [.mkPtr 0 1, .mkPtr 2 1] 0 (by decide)).2.1

/-- C9: `makeFreshValue(v)` fails (returns the usage error) exactly when v is
already registered, and otherwise yields a state in which v is registered with
no edges; `makePointerTo` is total and registers both of its operands. -/
theorem makeFreshValue_usage_error (ops : List Op) (v : Value) :
    (makeFreshValue (applyOps ops) v = none ↔ contains (applyOps ops) v = true) ∧
    (contains (applyOps ops) v = false →
      ∃ t : State, makeFreshValue (applyOps ops) v = some t ∧
        contains t v = true ∧ t.ptsTo v = ∅ ∧ t.ptdFrom v = ∅) ∧
    (∀ u w : Value, contains (makePointerTo (applyOps ops) u w) u = true ∧
      contains (makePointerTo (applyOps ops) u w) w = true) := by
  have hWF := wf_applyOps ops
  set s := applyOps ops with hs
  refine ⟨?_, ?_, ?_⟩
  · by_cases hd : v ∈ s.dom <;> simp [makeFreshValue, contains, hd]
  · intro hc
    have hd : v ∉ s.dom := by simpa [contains] using hc
    refine ⟨addVertex s v, by simp [makeFreshValue, hd], ?_, ?_, ?_⟩
    · simp [contains, addVertex]
    · exact (hWF.off_dom v hd).1
    · exact (hWF.off_dom v hd).2
  · intro u w
    constructor <;> simp [contains, makePointerTo_dom]

/-- Witness for C9: at the state where only 0 is registered, re-registering 0
fails and registering the fresh value 1 succeeds with no edges. -/
theorem makeFreshValue_usage_error_witness :
    makeFreshValue (applyOps [.mkFresh 0]) 0 = none ∧
    ∃ t : State, makeFreshValue (applyOps [.mkFresh 0]) 1 = some t ∧
      contains t 1 = true ∧ t.ptsTo 1 = ∅ ∧ t.ptdFrom 1 = ∅ :=
  ⟨(makeFreshValue_usage_error [.mkFresh 0] 0).1.mpr (by decide),
   (makeFreshValue_usage_error [.mkFresh 0] 1).2.1 (by decide)⟩

/-- C10: the group query is symmetric — for every state and all groups,
`mayAlias(A, B)` and `mayAlias(B, A)` return the same boolean. -/
theorem mayAliasGroup_symm (s : State) (a b : List Value) :
    mayAliasGroup s a b = mayAliasGroup s b a := by
  apply bool_eq_of_iff
  rw [mayAliasGroup_eq_true_iff, mayAliasGroup_eq_true_iff]
  exact ⟨groupCond_swap, groupCond_swap⟩


end AliasTracker
